import Mathlib

/-!
Shallow embedding of the core of the `streamlit_fly_app` repository:
the sequence validator and the trypsin digestion engine
(`utils/sequence_processing.py`), the peptide encoder
(`utils/prediction.py`), and the coverage aggregator
(`utils/visualization.py`).  Protein sequences are modelled as
`List Char`, Python ints as `Int`/`Nat`, Python floats (used only for
percentage arithmetic) as `ℚ`, and Python exceptions as `Option`.
-/

namespace FlyApp

/-- The 20-letter amino-acid alphabet of `validate_sequence`
(`valid_amino_acids = set('ACDEFGHIKLMNPQRSTVWY')` in the source). -/
def valid_amino_acids : List Char := "ACDEFGHIKLMNPQRSTVWY".toList

/-- Insert a character into a list sorted by code point (helper realizing
Python's `sorted`). -/
def insertSorted (c : Char) : List Char → List Char
  | [] => [c]
  | d :: t => if c ≤ d then c :: d :: t else d :: insertSorted c t

/-- Insertion sort on characters by code point, realizing Python's
`sorted(...)` applied to a set of characters. -/
def sortChars : List Char → List Char
  | [] => []
  | c :: t => insertSorted c (sortChars t)

/-- The sorted list of distinct invalid characters of a sequence:
Python's `sorted(set(sequence.upper()) - valid_amino_acids)`. -/
def invalidChars (s : List Char) : List Char :=
  sortChars (((s.map Char.toUpper).filter
    (fun c => decide (c ∉ valid_amino_acids))).dedup)

/-- `validate_sequence` from `utils/sequence_processing.py`: returns
`(is_valid, error_message)`.  The invalid-character check runs first,
the emptiness check second. -/
def validate_sequence (s : List Char) : Bool × Option String :=
  let invalid := invalidChars s
  if invalid ≠ [] then
    (false, some (String.append "Invalid characters found: "
      (String.intercalate ", " (invalid.map Char.toString))))
  else if s.length = 0 then
    (false, some "Sequence is empty")
  else
    (true, none)

/-- Semantics of the regex `(?<=[KR])(?!P)` at string offset `p`:
the lookbehind requires a preceding `K` or `R`, the negative lookahead
forbids a following `P`. -/
def isCleavageSite (s : List Char) (p : Nat) : Bool :=
  decide (1 ≤ p) &&
  (match s.get? (p - 1) with
   | some c => decide (c = 'K' ∨ c = 'R')
   | none => false) &&
  (match s.get? p with
   | some c => decide (c ≠ 'P')
   | none => true)

/-- The offsets produced by `re.finditer(cleavage_pattern, protein_sequence)`:
all string offsets (in increasing order) where the cleavage regex matches. -/
def cleavageSites (s : List Char) : List Nat :=
  (List.range (s.length + 1)).filter (isCleavageSite s)

/-- The augmented offset list `cleavage_positions` of `trypsin_digest`:
`[0]`, then the matched offsets in scan order, then `len(protein_sequence)`. -/
def cleavage_positions (s : List Char) : List Nat :=
  0 :: (cleavageSites s ++ [s.length])

/-- The consecutive pairs `(cleavage_positions[i], cleavage_positions[i+1])`
visited by the extraction loop of `trypsin_digest`. -/
def candidatePairs (s : List Char) : List (Nat × Nat) :=
  (cleavage_positions s).zip (cleavage_positions s).tail

/-- One output record of `trypsin_digest`:
`{"sequence": ..., "start": ..., "end": ..., "length": ...}`. -/
structure Peptide where
  sequence : List Char
  start : Nat
  «end» : Nat
  length : Nat
deriving DecidableEq

/-- Python slice `s[a:b]` for `0 ≤ a, b` (clamping semantics for `a ≤ b`). -/
def slice (s : List Char) (a b : Nat) : List Char :=
  (s.drop a).take (b - a)

/-- The loop body of `trypsin_digest` at one pair of consecutive cleavage
positions: extract the substring and keep it iff
`min_length <= len(peptide_seq) <= max_length`. -/
def digestStep (s : List Char) (min_length max_length : Int) (se : Nat × Nat) :
    Option Peptide :=
  if min_length ≤ ((slice s se.1 se.2).length : Int) ∧
      ((slice s se.1 se.2).length : Int) ≤ max_length then
    some { sequence := slice s se.1 se.2, start := se.1, «end» := se.2,
           length := (slice s se.1 se.2).length }
  else
    none

/-- `trypsin_digest` from `utils/sequence_processing.py`: extract the
substring between each consecutive pair of cleavage positions and keep it
iff `min_length <= len <= max_length`. -/
def trypsin_digest (s : List Char) (min_length max_length : Int) : List Peptide :=
  (candidatePairs s).filterMap (digestStep s min_length max_length)

/-- The amino-acid-to-integer table `AA_TO_INT` of `utils/prediction.py`:
a padding symbol mapped to 0 plus the 20 amino acids mapped to 1..20. -/
def AA_TO_INT : List (Char × Nat) :=
  [('0', 0), ('A', 1), ('C', 2), ('D', 3), ('E', 4), ('F', 5),
   ('G', 6), ('H', 7), ('I', 8), ('K', 9), ('L', 10), ('M', 11),
   ('N', 12), ('P', 13), ('Q', 14), ('R', 15), ('S', 16),
   ('T', 17), ('V', 18), ('W', 19), ('Y', 20)]

/-- Python's `AA_TO_INT.get(aa, 0)`: table lookup with default 0. -/
def aaToInt (c : Char) : Nat :=
  (AA_TO_INT.lookup c).getD 0

/-- `encode_peptide` from `utils/prediction.py` (without the trailing
numpy batch-dimension wrap): upper-case, map through `AA_TO_INT` with
default 0, then right-pad with 0 or right-truncate to `max_len`. -/
def encode_peptide (s : List Char) (max_len : Nat) : List Nat :=
  let sequence := s.map Char.toUpper
  let encoded := sequence.map aaToInt
  if encoded.length < max_len then
    encoded ++ List.replicate (max_len - encoded.length) 0
  else
    encoded.take max_len

/-- The inverse of `AA_TO_INT`, as used by the spec's round-trip property:
the (unique) character mapped to a given code, with `'0'` for the padding
code and out-of-range codes. -/
def intToAA (n : Nat) : Char :=
  ((AA_TO_INT.find? (fun pr => decide (pr.2 = n))).map Prod.fst).getD '0'

/-- Strip the trailing zeros (the padding suffix) from an encoded vector. -/
def removeTrailingZeros (l : List Nat) : List Nat :=
  (l.reverse.dropWhile (fun n => decide (n = 0))).reverse

/-- The spec's truncation-padding inverse of `encode_peptide`: drop the
trailing padding zeros, then map every remaining entry back through the
inverse of `AA_TO_INT`. -/
def decode_encoded (l : List Nat) : List Char :=
  (removeTrailingZeros l).map intToAA

/-- The fields of an annotated peptide record that
`calculate_coverage_stats` reads: `start`, `end` and `is_flyer`. -/
structure AnnotatedPeptide where
  start : Nat
  «end» : Nat
  is_flyer : Bool
deriving DecidableEq

/-- The record returned by `calculate_coverage_stats`. -/
structure CoverageStats where
  total_peptides : Nat
  flyer_peptides : Nat
  non_flyer_peptides : Nat
  flyer_percentage : ℚ
  sequence_coverage : ℚ
  flyer_coverage : ℚ
  non_flyer_coverage : ℚ
  protein_length : Nat
deriving DecidableEq

/-- The set of residue positions covered by the peptides selected by
`keep`: the union of the half-open ranges `[start, end)` (Python builds
these sets with nested `for` loops over `range(start, end)`). -/
def coveredSet (peps : List AnnotatedPeptide) (keep : AnnotatedPeptide → Bool) :
    Finset Nat :=
  peps.foldl (fun acc p => if keep p then acc ∪ Finset.Ico p.start p.«end» else acc) ∅

/-- `calculate_coverage_stats` from `utils/visualization.py`.  The Python
function divides by `len(protein_sequence)` without a guard, so an empty
protein raises `ZeroDivisionError`; that failure is modelled as `none`.
The division by the peptide count is guarded
(`... if peptides_with_predictions else 0`). -/
def calculate_coverage_stats (protein : List Char)
    (peps : List AnnotatedPeptide) : Option CoverageStats :=
  if protein.length = 0 then
    none
  else
    let covered := coveredSet peps (fun _ => true)
    let flyer_count := (peps.filter (fun p => p.is_flyer)).length
    let flyer_pos := coveredSet peps (fun p => p.is_flyer)
    let non_flyer_pos := coveredSet peps (fun p => ! p.is_flyer)
    some
      { total_peptides := peps.length
        flyer_peptides := flyer_count
        non_flyer_peptides := peps.length - flyer_count
        flyer_percentage :=
          if peps ≠ [] then (flyer_count : ℚ) / (peps.length : ℚ) * 100 else 0
        sequence_coverage := (covered.card : ℚ) / (protein.length : ℚ) * 100
        flyer_coverage := (flyer_pos.card : ℚ) / (protein.length : ℚ) * 100
        non_flyer_coverage := (non_flyer_pos.card : ℚ) / (protein.length : ℚ) * 100
        protein_length := protein.length }

/-! ### Helper lemmas about the cleavage-position list -/

/-- Every matched cleavage offset lies strictly inside `[1, len]`:
the lookbehind forces `1 ≤ p` and a preceding character forces `p ≤ len`. -/
theorem cleavageSites_mem_bounds {s : List Char} {c : Nat}
    (h : c ∈ cleavageSites s) : 1 ≤ c ∧ c ≤ s.length := by
  unfold cleavageSites at h
  rcases List.mem_filter.1 h with ⟨hr, hp⟩
  constructor
  · unfold isCleavageSite at hp
    simp only [Bool.and_eq_true] at hp
    exact of_decide_eq_true hp.1.1
  · exact Nat.lt_succ_iff.1 (List.mem_range.1 hr)

/-- The matched cleavage offsets are strictly increasing (they are a
filter of `range`, which is strictly increasing). -/
theorem cleavageSites_pairwise (s : List Char) :
    (cleavageSites s).Pairwise (· < ·) :=
  (List.pairwise_lt_range _).filter _

/-- The augmented offset list `[0] ++ sites ++ [len]` is a `≤`-chain. -/
theorem cleavage_positions_chain (s : List Char) :
    List.Chain (· ≤ ·) 0 (cleavageSites s ++ [s.length]) := by
  have hpw : (0 :: (cleavageSites s ++ [s.length])).Pairwise (· ≤ ·) := by
    refine List.pairwise_cons.2 ⟨fun b _ => Nat.zero_le b, ?_⟩
    refine List.pairwise_append.2 ⟨?_, List.pairwise_singleton _ _, ?_⟩
    · exact (cleavageSites_pairwise s).imp Nat.le_of_lt
    · intro a ha b hb
      rcases List.mem_singleton.1 hb with rfl
      exact (cleavageSites_mem_bounds ha).2
  exact List.chain'_iff_pairwise.2 hpw

/-- Pairs of consecutive elements of a `≤`-chain satisfy `fst ≤ snd`. -/
theorem chain_zip_le :
    ∀ (t : List Nat) (a : Nat), List.Chain (· ≤ ·) a t →
      ∀ q ∈ (a :: t).zip t, q.1 ≤ q.2 := by
  intro t
  induction t with
  | nil => intro a _ q hq; simp [List.zip] at hq
  | cons b t' ih =>
    intro a hch q hq
    rcases List.chain_cons.1 hch with ⟨hab, hbt⟩
    have hzip : ((a :: b :: t').zip (b :: t')) = (a, b) :: ((b :: t').zip t') := rfl
    rw [hzip] at hq
    rcases List.mem_cons.1 hq with rfl | hq
    · exact hab
    · exact ih b hbt q hq

/-- Each candidate pair is ordered and ends within the protein. -/
theorem candidatePairs_le {s : List Char} {q : Nat × Nat}
    (h : q ∈ candidatePairs s) : q.1 ≤ q.2 ∧ q.2 ≤ s.length := by
  unfold candidatePairs cleavage_positions at h
  constructor
  · exact chain_zip_le _ 0 (cleavage_positions_chain s) q h
  · rcases q with ⟨x, y⟩
    have hy : y ∈ cleavageSites s ++ [s.length] := (List.of_mem_zip h).2
    rcases List.mem_append.1 hy with hy | hy
    · exact (cleavageSites_mem_bounds hy).2
    · rcases List.mem_singleton.1 hy with rfl
      exact Nat.le_refl _

/-- In a `≤`-chain whose head already exceeds `k`, no consecutive pair
contains position `k`. -/
theorem chain_pairs_countP_zero (k : Nat) :
    ∀ (t : List Nat) (a : Nat), List.Chain (· ≤ ·) a t → k < a →
      ((a :: t).zip t).countP (fun q => decide (q.1 ≤ k ∧ k < q.2)) = 0 := by
  intro t
  induction t with
  | nil => intro a _ _; simp [List.zip]
  | cons b t' ih =>
    intro a hch hk
    rcases List.chain_cons.1 hch with ⟨hab, hbt⟩
    have hzip : ((a :: b :: t').zip (b :: t')) = (a, b) :: ((b :: t').zip t') := rfl
    have hpred : decide ((a, b).1 ≤ k ∧ k < (a, b).2) = false := by
      show decide (a ≤ k ∧ k < b) = false
      simp only [decide_eq_false_iff_not]
      omega
    rw [hzip, List.countP_cons, hpred, ih b hbt (Nat.lt_of_lt_of_le hk hab)]
    simp

/-- In a `≤`-chain from `a` through `t ++ [L]` with `a ≤ k < L`, exactly one
consecutive pair contains position `k`. -/
theorem chain_pairs_countP_one (k L : Nat) :
    ∀ (t : List Nat) (a : Nat), List.Chain (· ≤ ·) a (t ++ [L]) →
      a ≤ k → k < L →
      ((a :: (t ++ [L])).zip (t ++ [L])).countP
        (fun q => decide (q.1 ≤ k ∧ k < q.2)) = 1 := by
  intro t
  induction t with
  | nil =>
    intro a _ hak hkL
    have hzip : ((a :: ([] ++ [L])).zip ([] ++ [L])) = [(a, L)] := rfl
    have hpred : decide ((a, L).1 ≤ k ∧ k < (a, L).2) = true := by
      show decide (a ≤ k ∧ k < L) = true
      simp only [decide_eq_true_eq]
      omega
    rw [hzip, List.countP_cons, hpred]
    simp
  | cons b t' ih =>
    intro a hch hak hkL
    rcases List.chain_cons.1 hch with ⟨hab, hbt⟩
    have hzip : ((a :: (b :: t' ++ [L])).zip (b :: t' ++ [L]))
        = (a, b) :: ((b :: (t' ++ [L])).zip (t' ++ [L])) := rfl
    by_cases hkb : k < b
    · have hpred : decide ((a, b).1 ≤ k ∧ k < (a, b).2) = true := by
        show decide (a ≤ k ∧ k < b) = true
        simp only [decide_eq_true_eq]
        omega
      rw [hzip, List.countP_cons, hpred,
        chain_pairs_countP_zero k (t' ++ [L]) b hbt hkb]
      simp
    · have hpred : decide ((a, b).1 ≤ k ∧ k < (a, b).2) = false := by
        show decide (a ≤ k ∧ k < b) = false
        simp only [decide_eq_false_iff_not]
        omega
      rw [hzip, List.countP_cons, hpred, ih b hbt (Nat.le_of_not_lt hkb) hkL]
      simp

/-- The first components of the consecutive pairs of `l ++ [x]` all lie
in `l`. -/
theorem pairs_fst_mem :
    ∀ (l : List Nat) (x : Nat) (q : Nat × Nat),
      q ∈ ((l ++ [x]).zip ((l ++ [x]).tail)) → q.1 ∈ l := by
  intro l
  induction l with
  | nil => intro x q hq; simp [List.zip] at hq
  | cons a l' ih =>
    intro x q hq
    cases l' with
    | nil =>
      have hzip : (([a] ++ [x]).zip (([a] ++ [x]).tail)) = [(a, x)] := rfl
      rw [hzip] at hq
      rcases List.mem_singleton.1 hq with rfl
      simp
    | cons b t =>
      have hzip : (((a :: b :: t) ++ [x]).zip (((a :: b :: t) ++ [x]).tail))
          = (a, b) :: (((b :: t) ++ [x]).zip (((b :: t) ++ [x]).tail)) := rfl
      rw [hzip] at hq
      rcases List.mem_cons.1 hq with rfl | hq
      · simp
      · exact List.mem_cons_of_mem _ (ih x q hq)

/-- The first components of the consecutive pairs of `l ++ [x]` are
strictly increasing when `l` is. -/
theorem pairs_fst_pairwise :
    ∀ (l : List Nat) (x : Nat), l.Pairwise (· < ·) →
      ((l ++ [x]).zip ((l ++ [x]).tail)).Pairwise
        (fun q r : Nat × Nat => q.1 < r.1) := by
  intro l
  induction l with
  | nil => intro x _; simp [List.zip]
  | cons a l' ih =>
    intro x hpw
    rcases List.pairwise_cons.1 hpw with ⟨ha, hl'⟩
    cases l' with
    | nil =>
      have hzip : (([a] ++ [x]).zip (([a] ++ [x]).tail)) = [(a, x)] := rfl
      rw [hzip]
      exact List.pairwise_singleton _ _
    | cons b t =>
      have hzip : (((a :: b :: t) ++ [x]).zip (((a :: b :: t) ++ [x]).tail))
          = (a, b) :: (((b :: t) ++ [x]).zip (((b :: t) ++ [x]).tail)) := rfl
      rw [hzip]
      refine List.pairwise_cons.2 ⟨?_, ih x hl'⟩
      intro q hq
      exact ha q.1 (pairs_fst_mem (b :: t) x q hq)

/-- The candidate pairs have strictly increasing `start` components. -/
theorem candidatePairs_fst_pairwise (s : List Char) :
    (candidatePairs s).Pairwise (fun q r : Nat × Nat => q.1 < r.1) := by
  have h0 : (0 :: cleavageSites s).Pairwise (· < ·) := by
    refine List.pairwise_cons.2 ⟨?_, cleavageSites_pairwise s⟩
    intro b hb
    exact Nat.lt_of_lt_of_le Nat.zero_lt_one (cleavageSites_mem_bounds hb).1
  exact pairs_fst_pairwise (0 :: cleavageSites s) s.length h0

/-- Length of the Python slice `s[a:b]` for `b` within the sequence. -/
theorem slice_length {s : List Char} {a b : Nat} (hb : b ≤ s.length) :
    (slice s a b).length = b - a := by
  unfold slice
  rw [List.length_take, List.length_drop]
  omega

/-- Inversion for the loop body of `trypsin_digest`: what a retained
peptide record contains. -/
theorem digestStep_eq_some {s : List Char} {mn mx : Int} {se : Nat × Nat}
    {p : Peptide} (h : digestStep s mn mx se = some p) :
    p.sequence = slice s se.1 se.2 ∧ p.start = se.1 ∧ p.«end» = se.2 ∧
      p.length = (slice s se.1 se.2).length ∧
      mn ≤ ((slice s se.1 se.2).length : Int) ∧
      ((slice s se.1 se.2).length : Int) ≤ mx := by
  unfold digestStep at h
  split at h
  · rename_i hcond
    simp only [Option.some.injEq] at h
    subst h
    exact ⟨rfl, rfl, rfl, rfl, hcond.1, hcond.2⟩
  · exact absurd h (by simp)

/-- The loop body of `trypsin_digest` retains a candidate whose length is
within bounds. -/
theorem digestStep_eq_some_of {s : List Char} {mn mx : Int} {se : Nat × Nat}
    (h1 : mn ≤ ((slice s se.1 se.2).length : Int))
    (h2 : ((slice s se.1 se.2).length : Int) ≤ mx) :
    digestStep s mn mx se =
      some { sequence := slice s se.1 se.2, start := se.1, «end» := se.2,
             length := (slice s se.1 se.2).length } := by
  unfold digestStep
  rw [if_pos ⟨h1, h2⟩]

/-- Boolean specification of the cleavage-site test (the regex
`(?<=[KR])(?!P)` at offset `p`). -/
theorem isCleavageSite_iff (s : List Char) (p : Nat) :
    isCleavageSite s p = true ↔
      (1 ≤ p ∧ (s.get? (p - 1) = some 'K' ∨ s.get? (p - 1) = some 'R') ∧
        s.get? p ≠ some 'P') := by
  unfold isCleavageSite
  cases hb : s.get? (p - 1) with
  | none => simp [hb]
  | some c =>
    cases ha : s.get? p with
    | none => simp [hb, ha]
    | some d => simp [hb, ha, and_assoc]

/-! ### The claims -/

/-- C1 (counterexample): digesting `"MVLSPADKTNVKAAWGK"` with bounds
`(6, 40)` does not yield 2 peptides. -/
theorem trypsin_digest_example_not_two :
    (trypsin_digest "MVLSPADKTNVKAAWGK".toList 6 40).length ≠ 2 := by decide

/-- C1 (amended): digesting `"MVLSPADKTNVKAAWGK"` with bounds `(6, 40)`
yields exactly one peptide, `"MVLSPADK"` with offsets `(0, 8)`; the
candidates are `(0,8)`, `(8,12)` (`"TNVK"`), `(12,17)` (`"AAWGK"`) and the
empty `(17,17)`, of which the last three are shorter than 6 and dropped. -/
theorem trypsin_digest_example :
    trypsin_digest "MVLSPADKTNVKAAWGK".toList 6 40 =
      [{ sequence := "MVLSPADK".toList, start := 0, «end» := 8, length := 8 }] ∧
    candidatePairs "MVLSPADKTNVKAAWGK".toList =
      [(0, 8), (8, 12), (12, 17), (17, 17)] :=
  ⟨by decide, by decide⟩

/-- C3 (counterexample): with `min_length = 0` the digest of `"K"` retains
the empty trailing candidate, whose record has `start = end = 1`,
violating `start < end`. -/
theorem trypsin_digest_zero_length_range :
    ¬ (∀ p ∈ trypsin_digest "K".toList 0 10, p.start < p.«end») := by decide

/-- C3 (amended): when `min_length ≥ 1`, every retained peptide satisfies
`start < end ≤ len(protein)` (with `0 ≤ start` automatic), and no two
retained peptides carry the same `(start, end)` range. -/
theorem trypsin_digest_invariants (s : List Char) (mn mx : Int)
    (hmn : 1 ≤ mn) :
    (∀ p ∈ trypsin_digest s mn mx, p.start < p.«end» ∧ p.«end» ≤ s.length) ∧
    (trypsin_digest s mn mx).Pairwise
      (fun p q => (p.start, p.«end») ≠ (q.start, q.«end»)) := by
  constructor
  · intro p hp
    rcases List.mem_filterMap.1 hp with ⟨q, hq, hfq⟩
    rcases digestStep_eq_some hfq with ⟨_, hstart, hend, _, hmnlen, _⟩
    rcases candidatePairs_le hq with ⟨hq12, hq2⟩
    have hslice : (slice s q.1 q.2).length = q.2 - q.1 := slice_length hq2
    have h1 : 1 ≤ (slice s q.1 q.2).length := by
      exact_mod_cast le_trans hmn hmnlen
    rw [hstart, hend]
    omega
  · refine List.Pairwise.filterMap _ ?_ (candidatePairs_fst_pairwise s)
    intro q r hqr p hp p' hp'
    have h1 := digestStep_eq_some (Option.mem_def.1 hp)
    have h2 := digestStep_eq_some (Option.mem_def.1 hp')
    intro heq
    have hfst : p.start = p'.start := congrArg Prod.fst heq
    rw [h1.2.1, h2.2.1] at hfst
    omega

/-- Witness for C3 (amended) at the default bounds on the example protein. -/
theorem trypsin_digest_invariants_witness :
    ((1 : Int) ≤ 6) ∧
    (trypsin_digest "MVLSPADKTNVKAAWGK".toList 6 40).Pairwise
      (fun p q => (p.start, p.«end») ≠ (q.start, q.«end»)) :=
  ⟨by decide, (trypsin_digest_invariants _ 6 40 (by decide)).2⟩

/-- C4: every residue position of the protein is contained in exactly one
candidate range, i.e. the consecutive pairs of the augmented offset list
partition `[0, len)` with no gaps and no overlaps. -/
theorem trypsin_candidate_partition (s : List Char) (k : Nat)
    (hk : k < s.length) :
    (candidatePairs s).countP (fun q => decide (q.1 ≤ k ∧ k < q.2)) = 1 :=
  chain_pairs_countP_one k s.length (cleavageSites s) 0
    (cleavage_positions_chain s) (Nat.zero_le k) hk

/-- Witness for C4 at position 10 of the example protein. -/
theorem trypsin_candidate_partition_witness :
    10 < "MVLSPADKTNVKAAWGK".toList.length ∧
    (candidatePairs "MVLSPADKTNVKAAWGK".toList).countP
      (fun q => decide (q.1 ≤ 10 ∧ 10 < q.2)) = 1 :=
  ⟨by decide, trypsin_candidate_partition _ 10 (by decide)⟩

/-- C5: a cleavage site sits immediately after residue `i` exactly when
that residue is `K` or `R` and the following residue (if any) is not `P`;
no site sits at offset 0; and `digest("AARPK", 1, 10)` does not cleave
between the `R` and the `P` (the whole chain is one peptide). -/
theorem trypsin_cleavage_rule (s : List Char) (i : Nat) :
    ((i + 1) ∈ cleavageSites s ↔
      ((s.get? i = some 'K' ∨ s.get? i = some 'R') ∧
        s.get? (i + 1) ≠ some 'P')) ∧
    0 ∉ cleavageSites s ∧
    trypsin_digest "AARPK".toList 1 10 =
      [{ sequence := "AARPK".toList, start := 0, «end» := 5, length := 5 }] := by
  refine ⟨?_, ?_, by decide⟩
  · unfold cleavageSites
    rw [List.mem_filter, List.mem_range, isCleavageSite_iff]
    simp only [Nat.add_sub_cancel]
    constructor
    · rintro ⟨_, _, hKR, hP⟩
      exact ⟨hKR, hP⟩
    · rintro ⟨hKR, hP⟩
      have hi : i < s.length := by
        by_contra hge
        rw [List.get?_eq_none.2 (Nat.le_of_not_lt hge)] at hKR
        rcases hKR with h | h <;> exact Option.noConfusion h
      exact ⟨by omega, by omega, hKR, hP⟩
  · intro h
    have := (cleavageSites_mem_bounds h).1
    omega

/-- Witness for C5 at residue 4 (the terminal `K`) of `"AARPK"`. -/
theorem trypsin_cleavage_rule_witness :
    ((4 + 1) ∈ cleavageSites "AARPK".toList ↔
      (("AARPK".toList.get? 4 = some 'K' ∨
          "AARPK".toList.get? 4 = some 'R') ∧
        "AARPK".toList.get? (4 + 1) ≠ some 'P')) ∧
    0 ∉ cleavageSites "AARPK".toList :=
  ⟨(trypsin_cleavage_rule "AARPK".toList 4).1,
    (trypsin_cleavage_rule "AARPK".toList 4).2.1⟩

/-- C6: a candidate pair `(a, b)` gives rise to a retained peptide with
exactly that range iff `min_length ≤ b - a ≤ max_length`; out-of-bounds
candidates are silently absent from the output. -/
theorem trypsin_length_filter (s : List Char) (mn mx : Int) (a b : Nat)
    (hab : (a, b) ∈ candidatePairs s) :
    (∃ p ∈ trypsin_digest s mn mx, p.start = a ∧ p.«end» = b) ↔
      (mn ≤ ((b - a : Nat) : Int) ∧ ((b - a : Nat) : Int) ≤ mx) := by
  have hb : b ≤ s.length := (candidatePairs_le hab).2
  have hlen : (slice s a b).length = b - a := slice_length hb
  constructor
  · rintro ⟨p, hp, hpa, hpb⟩
    rcases List.mem_filterMap.1 hp with ⟨q, hq, hfq⟩
    rcases digestStep_eq_some hfq with ⟨_, hstart, hend, _, h1, h2⟩
    have hqa : q.1 = a := by rw [← hstart, hpa]
    have hqb : q.2 = b := by rw [← hend, hpb]
    rw [hqa, hqb, hlen] at h1 h2
    exact ⟨h1, h2⟩
  · rintro ⟨h1, h2⟩
    rw [← hlen] at h1 h2
    exact ⟨_, List.mem_filterMap.2 ⟨(a, b), hab, digestStep_eq_some_of h1 h2⟩,
      rfl, rfl⟩

/-- Witness for C6 at the retained candidate `(0, 8)` of the example
protein. -/
theorem trypsin_length_filter_witness :
    ((0, 8) ∈ candidatePairs "MVLSPADKTNVKAAWGK".toList) ∧
    ((∃ p ∈ trypsin_digest "MVLSPADKTNVKAAWGK".toList 6 40,
        p.start = 0 ∧ p.«end» = 8) ↔
      ((6 : Int) ≤ ((8 - 0 : Nat) : Int) ∧ ((8 - 0 : Nat) : Int) ≤ 40)) :=
  ⟨by decide, trypsin_length_filter _ 6 40 0 8 (by decide)⟩

/-! ### Validator lemmas -/

theorem insertSorted_ne_nil (c : Char) (l : List Char) :
    insertSorted c l ≠ [] := by
  cases l with
  | nil => simp [insertSorted]
  | cons d t =>
    unfold insertSorted
    split <;> simp

theorem sortChars_eq_nil_iff (l : List Char) : sortChars l = [] ↔ l = [] := by
  cases l with
  | nil => simp [sortChars]
  | cons c t => simp [sortChars, insertSorted_ne_nil]

/-- The invalid-character list is empty exactly when every character of
the (upper-cased) sequence is a valid amino acid. -/
theorem invalidChars_eq_nil_iff (s : List Char) :
    invalidChars s = [] ↔ ∀ c ∈ s, c.toUpper ∈ valid_amino_acids := by
  unfold invalidChars
  rw [sortChars_eq_nil_iff, List.dedup_eq_nil, List.filter_eq_nil_iff]
  constructor
  · intro h c hc
    have := h (c.toUpper) (List.mem_map_of_mem _ hc)
    simpa using this
  · intro h a ha
    rcases List.mem_map.1 ha with ⟨c, hc, rfl⟩
    simpa using h c hc

/-- C7: `is_valid` is `False` exactly when the sequence is empty or
contains (after upper-casing) a character outside the 20-letter alphabet;
a valid sequence returns `(True, None)`; and the concrete scenario
`validate_sequence("MVLSP4DK") = (False, "Invalid characters found: 4")`
holds, the offending characters being listed sorted and comma-joined. -/
theorem validate_sequence_spec (s : List Char) :
    ((validate_sequence s).1 = false ↔
      (s = [] ∨ ∃ c ∈ s, c.toUpper ∉ valid_amino_acids)) ∧
    ((validate_sequence s = (true, none)) ↔
      (s ≠ [] ∧ ∀ c ∈ s, c.toUpper ∈ valid_amino_acids)) ∧
    validate_sequence "MVLSP4DK".toList =
      (false, some "Invalid characters found: 4") ∧
    validate_sequence "MVLSPADK".toList = (true, none) := by
  by_cases hinv : invalidChars s = []
  · have hall : ∀ c ∈ s, c.toUpper ∈ valid_amino_acids :=
      (invalidChars_eq_nil_iff s).1 hinv
    by_cases hs : s = []
    · subst hs
      refine ⟨?_, ?_, by decide, by decide⟩
      · simp [validate_sequence, hinv]
      · simp [validate_sequence, hinv]
    · refine ⟨?_, ?_, by decide, by decide⟩
      · constructor
        · intro h
          simp [validate_sequence, hinv, hs] at h
        · rintro (h | ⟨c, hc, hval⟩)
          · exact absurd h hs
          · exact absurd (hall c hc) hval
      · constructor
        · intro _
          exact ⟨hs, hall⟩
        · intro _
          simp [validate_sequence, hinv, hs]
  · have hex : ∃ c ∈ s, c.toUpper ∉ valid_amino_acids := by
      by_contra hno
      push_neg at hno
      exact hinv ((invalidChars_eq_nil_iff s).2 hno)
    refine ⟨?_, ?_, by decide, by decide⟩
    · constructor
      · intro _
        exact Or.inr hex
      · intro _
        simp [validate_sequence, hinv]
    · constructor
      · intro h
        exfalso
        simp [validate_sequence, hinv] at h
      · rintro ⟨_, hall⟩
        exact absurd ((invalidChars_eq_nil_iff s).2 hall) hinv

/-- C10: `validate_sequence("")` returns exactly
`(False, "Sequence is empty")`, and the invalid-character check takes
precedence over the emptiness check: any non-empty input all of whose
characters are outside the alphabet yields the invalid-characters
message, not the empty-sequence message. -/
theorem validate_sequence_precedence (s : List Char) (h1 : s ≠ [])
    (h2 : ∀ c ∈ s, c.toUpper ∉ valid_amino_acids) :
    validate_sequence [] = (false, some "Sequence is empty") ∧
    ∃ rest, validate_sequence s =
      (false, some (String.append "Invalid characters found: " rest)) := by
  refine ⟨by decide, ?_⟩
  have hinv : invalidChars s ≠ [] := by
    intro h
    rcases List.exists_mem_of_ne_nil s h1 with ⟨c, hc⟩
    exact h2 c hc ((invalidChars_eq_nil_iff s).1 h c hc)
  exact ⟨String.intercalate ", " ((invalidChars s).map Char.toString),
    by simp [validate_sequence, hinv]⟩

/-- Witness for C10 on the whitespace-only input `" "`. -/
theorem validate_sequence_precedence_witness :
    " ".toList ≠ ([] : List Char) ∧
    (validate_sequence [] = (false, some "Sequence is empty") ∧
      ∃ rest, validate_sequence " ".toList =
        (false, some (String.append "Invalid characters found: " rest))) :=
  ⟨by decide, validate_sequence_precedence " ".toList (by decide) (by decide)⟩

/-! ### Encoder lemmas -/

/-- For sequences within the width limit the encoder output is the encoded
residues followed by the zero padding. -/
theorem encode_peptide_eq_append {s : List Char} {max_len : Nat}
    (h : s.length ≤ max_len) :
    encode_peptide s max_len =
      (s.map Char.toUpper).map aaToInt ++
        List.replicate (max_len - s.length) 0 := by
  simp only [encode_peptide, List.length_map]
  by_cases hlt : s.length < max_len
  · rw [if_pos hlt]
  · have heq : s.length = max_len := Nat.le_antisymm h (Nat.le_of_not_lt hlt)
    subst heq
    simp

/-- On the 20-letter alphabet the integer code is nonzero and the inverse
table recovers the residue. -/
theorem intToAA_aaToInt {c : Char} (h : c ∈ valid_amino_acids) :
    intToAA (aaToInt c) = c ∧ aaToInt c ≠ 0 := by
  fin_cases h <;> decide

theorem dropWhile_replicate_zero_append (r : List Nat) (k : Nat) :
    (List.replicate k 0 ++ r).dropWhile (fun n => decide (n = 0))
      = r.dropWhile (fun n => decide (n = 0)) := by
  induction k with
  | zero => simp
  | succ k ih =>
    rw [List.replicate_succ, List.cons_append,
      List.dropWhile_cons_of_pos (by decide)]
    exact ih

/-- Stripping the padding suffix from an all-nonzero vector followed by
zeros recovers the vector. -/
theorem removeTrailingZeros_append_replicate {E : List Nat} (k : Nat)
    (h : ∀ x ∈ E, x ≠ 0) :
    removeTrailingZeros (E ++ List.replicate k 0) = E := by
  unfold removeTrailingZeros
  rw [List.reverse_append, List.reverse_replicate,
    dropWhile_replicate_zero_append]
  cases hE : E.reverse with
  | nil =>
    rw [List.reverse_eq_nil_iff] at hE
    subst hE
    simp
  | cons a t =>
    have ha : a ∈ E := by
      have : a ∈ E.reverse := by
        rw [hE]
        exact List.mem_cons_self a t
      simpa using this
    rw [List.dropWhile_cons_of_neg (by simp [h a ha]), ← hE,
      List.reverse_reverse]

/-- C8 (counterexample): for the sequence `"BA"` (whose `B` is outside the
table and silently encodes to the padding value 0) the round trip does not
reproduce the upper-cased input. -/
theorem encode_round_trip_fails :
    decode_encoded (encode_peptide "BA".toList 40) ≠
      "BA".toList.map Char.toUpper := by decide

/-- C8 (amended): for every sequence whose upper-cased characters all lie
in the 20-letter alphabet and whose length is at most `max_len`, encoding
and then mapping the entries before the padding suffix back through the
inverse table reproduces the upper-cased sequence. -/
theorem encode_round_trip (s : List Char) (max_len : Nat)
    (hlen : s.length ≤ max_len)
    (hval : ∀ c ∈ s, c.toUpper ∈ valid_amino_acids) :
    decode_encoded (encode_peptide s max_len) = s.map Char.toUpper := by
  rw [encode_peptide_eq_append hlen]
  unfold decode_encoded
  have hne : ∀ x ∈ (s.map Char.toUpper).map aaToInt, x ≠ 0 := by
    intro x hx
    rcases List.mem_map.1 hx with ⟨c, hc, rfl⟩
    rcases List.mem_map.1 hc with ⟨c', hc', rfl⟩
    exact (intToAA_aaToInt (hval c' hc')).2
  rw [removeTrailingZeros_append_replicate _ hne, List.map_map]
  have hid : ∀ c ∈ s.map Char.toUpper, (intToAA ∘ aaToInt) c = c := by
    intro c hc
    rcases List.mem_map.1 hc with ⟨c', hc', rfl⟩
    exact (intToAA_aaToInt (hval c' hc')).1
  rw [List.map_congr_left hid]
  simp

/-- Witness for C8 (amended) on the mixed-case peptide `"acdK"`. -/
theorem encode_round_trip_witness :
    "acdK".toList.length ≤ 40 ∧
    decode_encoded (encode_peptide "acdK".toList 40) =
      "acdK".toList.map Char.toUpper :=
  ⟨by decide, encode_round_trip _ 40 (by decide) (by decide)⟩

/-- C9: the encoder output always has length exactly `max_len`; shorter
sequences are right-padded with 0, longer sequences are right-truncated,
and a character outside the table encodes to 0 instead of raising. -/
theorem encode_peptide_shape (s : List Char) (max_len : Nat) (c : Char) :
    (encode_peptide s max_len).length = max_len ∧
    (s.length ≤ max_len →
      encode_peptide s max_len =
        (s.map Char.toUpper).map aaToInt ++
          List.replicate (max_len - s.length) 0) ∧
    (max_len ≤ s.length →
      encode_peptide s max_len =
        ((s.take max_len).map Char.toUpper).map aaToInt) ∧
    (c ∉ AA_TO_INT.map Prod.fst → aaToInt c = 0) := by
  refine ⟨?_, fun h => encode_peptide_eq_append h, ?_, ?_⟩
  · simp only [encode_peptide, List.length_map]
    by_cases hlt : s.length < max_len
    · rw [if_pos hlt]
      simp only [List.length_append, List.length_map, List.length_replicate]
      omega
    · rw [if_neg hlt]
      simp only [List.length_take, List.length_map]
      omega
  · intro hml
    simp only [encode_peptide, List.length_map]
    rw [if_neg (by omega), List.map_take, List.map_take]
  · intro hc
    have hnone : AA_TO_INT.lookup c = none := by
      rw [List.lookup_eq_none_iff]
      intro p hp
      refine bne_iff_ne.2 fun h => ?_
      subst h
      exact hc (List.mem_map_of_mem _ hp)
    unfold aaToInt
    rw [hnone]
    rfl

/-- Witness for C9 on `"AK"` with width 5. -/
theorem encode_peptide_shape_witness :
    "AK".toList.length ≤ 5 ∧
    encode_peptide "AK".toList 5 =
      ("AK".toList.map Char.toUpper).map aaToInt ++
        List.replicate (5 - "AK".toList.length) 0 :=
  ⟨by decide, (encode_peptide_shape "AK".toList 5 'A').2.1 (by decide)⟩

/-! ### Coverage aggregation -/

/-- C2 (counterexample): on an empty protein `calculate_coverage_stats`
divides by `len(protein_sequence) = 0` and fails (modelled as `none`)
instead of returning a zero-valued statistics record. -/
theorem calculate_coverage_stats_empty_protein :
    calculate_coverage_stats [] [] = none := rfl

/-- C2 (amended): for every non-empty protein the aggregation succeeds for
every annotated-peptide list, and on an empty annotated-peptide list it
returns the zero-valued statistics record (`total_peptides = 0`,
`flyer_percentage = 0`, `sequence_coverage = 0`, ...); the division by the
peptide count is guarded. -/
theorem calculate_coverage_stats_degenerate (protein : List Char)
    (peps : List AnnotatedPeptide) (h : protein ≠ []) :
    (calculate_coverage_stats protein peps).isSome = true ∧
    calculate_coverage_stats protein [] =
      some { total_peptides := 0, flyer_peptides := 0, non_flyer_peptides := 0,
             flyer_percentage := 0, sequence_coverage := 0, flyer_coverage := 0,
             non_flyer_coverage := 0, protein_length := protein.length } := by
  have hlen : ¬ protein.length = 0 := by
    simpa [List.length_eq_zero] using h
  constructor
  · simp [calculate_coverage_stats, hlen]
  · simp [calculate_coverage_stats, hlen, coveredSet]

/-- Witness for C2 (amended) on the one-residue protein `"A"`. -/
theorem calculate_coverage_stats_degenerate_witness :
    (['A'] : List Char) ≠ [] ∧
    (calculate_coverage_stats ['A'] [⟨0, 1, true⟩]).isSome = true :=
  ⟨by decide,
    (calculate_coverage_stats_degenerate ['A'] [⟨0, 1, true⟩] (by decide)).1⟩

end FlyApp
